import Mathlib

/-!
A shallow embedding of the CSSR (Causal-State Splitting Reconstruction)
implementation in `src/lib.rs`, together with theorems settling the frozen
claims about it.

Modelling conventions:
* Rust `u32` symbols are modelled as `ℕ`, and `f32`/`f64` probabilities as
  `ℚ`; every arithmetic operation the code performs on the modelled paths
  is exact on the rationals that actually arise.
* `HashSet` fields are modelled as `Finset`; a `HashMap<u32, f32>`
  distribution is modelled as a total function `ℕ → ℚ` that is `0` outside
  the stored entries, matching every lookup site in the source (which uses
  `unwrap_or(&0.0)` and zero-fills the alphabet).
* The chi-square CDF supplied by the `statrs` crate is an external numeric
  routine; the embedding takes it as an explicit parameter
  `cdf : ℕ → ℚ → ℚ` (degrees of freedom, evaluation point).  Theorems that
  depend on actual values of the CDF state the needed facts about it as
  hypotheses.
* Rust panics are modelled by `Option`: `none` is a panic.
* The only order-dependent part of the algorithm is the construction of the
  per-parent candidate list, driven by the iteration order of the alphabet
  `HashSet`; that order is taken as an explicit list parameter `ord`.
-/

namespace CSSR

/-- a `u32` symbol of the input alphabet. -/
abbrev Symbol : Type := ℕ

/-- `pub type History = Vec<u32>` from the source. -/
abbrev History : Type := List Symbol

/-- the data window `&data[i..i + L]` read by the estimator scan. -/
def window (data : List Symbol) (i L : ℕ) : List Symbol :=
  (data.drop i).take L

/-- the member length `histories.iter().next().unwrap().len()`.  The choice
of member is irrelevant under the caller invariant that all members share
one length, so the embedding takes the sup of the lengths, which equals
that common length for a nonempty set. -/
def histLen (H : Finset History) : ℕ := H.sup List.length

/-- positions `i` in `0..=(data.len() - L - 1)` whose window lies in the
history set; the `List.range (data.length - L)` bound also captures the
`data.len() > history_len` guard, since the range is empty when
`data.length ≤ L`. -/
def matchPositions (H : Finset History) (data : List Symbol) (L : ℕ) : List ℕ :=
  (List.range (data.length - L)).filter (fun i => decide (window data i L ∈ H))

/-- the per-symbol counter of `compute_next_symbol_dist`: global count of
the symbol for the root case, otherwise the number of matched positions
followed by the symbol. -/
def symbolTally (H : Finset History) (data : List Symbol) (s : Symbol) : ℕ :=
  if histLen H = 0 then data.count s
  else ((matchPositions H data (histLen H)).filter
      (fun i => decide (data.get? (i + histLen H) = some s))).length

/-- the `total_count` counter of `compute_next_symbol_dist`. -/
def totalTally (H : Finset History) (data : List Symbol) : ℕ :=
  if histLen H = 0 then data.length
  else (matchPositions H data (histLen H)).length

/-- `compute_next_symbol_dist` from the source, as the lookup-with-default
function of the returned map: an empty history set yields the all-zero
distribution, otherwise each symbol gets `count / total` when the total is
positive and `0` when it is zero. -/
def compute_next_symbol_dist (H : Finset History) (data : List Symbol)
    (alphabet : Finset Symbol) : Symbol → ℚ :=
  if H = ∅ then fun _ => 0
  else fun s =>
    if 0 < totalTally H data then (symbolTally H data s : ℚ) / (totalTally H data : ℚ)
    else 0

/-- the support check `next_symbol_dist.values().any(|&p| p > 0.0)` run by
`CSSR::run` on a freshly computed distribution.  The keys of the computed
map are the observed next symbols (a subset of the data symbols) together
with the alphabet, so the check is an existential over that key set. -/
def distHasSupport (H : Finset History) (data : List Symbol)
    (alphabet : Finset Symbol) : Bool :=
  decide (∃ s ∈ alphabet ∪ data.toFinset, 0 < compute_next_symbol_dist H data alphabet s)

/-- the accumulation loop of `are_distributions_similar` over the zipped
pairs: `none` models the early `return false` taken when the reference
entry is not positive but the first entry is; otherwise the statistic and
the category counter are accumulated. -/
def chiSquareScan : List (ℚ × ℚ) → ℚ → ℕ → Option (ℚ × ℕ)
  | [], stat, k => some (stat, k)
  | p :: rest, stat, k =>
    if 0 < p.2 then chiSquareScan rest (stat + (p.1 - p.2) * (p.1 - p.2) / p.2) (k + 1)
    else if 0 < p.1 then none
    else chiSquareScan rest stat k

/-- `ChiSquared::new(dof)` from `statrs`: construction succeeds exactly for
a positive number of degrees of freedom. -/
def chiSquaredNew (dof : ℕ) : Option ℕ :=
  if 0 < dof then some dof else none

/-- `are_distributions_similar` from the source.  `none` models a panic
(the explicit length-mismatch panic, or the `unwrap` of a failed
`ChiSquared::new`); `some r` is a normal boolean return.  The final test
`p_value > alpha` with `p_value = 1 - cdf dof stat` is written as
`alpha < 1 - cdf dof stat`. -/
def are_distributions_similar (cdf : ℕ → ℚ → ℚ) (a b : List ℚ) (alpha : ℚ) :
    Option Bool :=
  if a.length ≠ b.length then none
  else
    match chiSquareScan (a.zip b) 0 0 with
    | none => some false
    | some (stat, k) =>
      if k = 0 then some true
      else if (k : ℤ) - 1 ≤ 0 then some true
      else
        match chiSquaredNew (k - 1) with
        | none => none
        | some dof => some (decide (alpha < 1 - cdf dof stat))

/-- The Equivalence Tester exactly as claim C3 words it: bail out to
`false` when some aligned pair has reference entry `= 0` against a positive
first entry; otherwise accumulate the statistic over the positions with a
positive reference entry, return `true` when the category counter minus one
is not positive, and otherwise compare the upper-tail p-value with
`alpha`. -/
def similarSpec (cdf : ℕ → ℚ → ℚ) (a b : List ℚ) (alpha : ℚ) : Bool :=
  if (a.zip b).any (fun p => decide (p.2 = 0) && decide (0 < p.1)) then false
  else if ((a.zip b).filter (fun p => decide (0 < p.2))).length ≤ 1 then true
  else
    decide (alpha < 1 -
      cdf (((a.zip b).filter (fun p => decide (0 < p.2))).length - 1)
        (((a.zip b).filter (fun p => decide (0 < p.2))).map
          (fun p => (p.1 - p.2) * (p.1 - p.2) / p.2)).sum)

/-- The Equivalence Tester as claim C3 must be amended: identical to
`similarSpec` except that the bail-out condition fires whenever the
reference entry is `≤ 0` (not only `= 0`) against a positive first entry,
which is what the source's `if p_b > 0 … else if p_a > 0` branching
does. -/
def similarSpecAmended (cdf : ℕ → ℚ → ℚ) (a b : List ℚ) (alpha : ℚ) : Bool :=
  if (a.zip b).any (fun p => decide (p.2 ≤ 0) && decide (0 < p.1)) then false
  else if ((a.zip b).filter (fun p => decide (0 < p.2))).length ≤ 1 then true
  else
    decide (alpha < 1 -
      cdf (((a.zip b).filter (fun p => decide (0 < p.2))).length - 1)
        (((a.zip b).filter (fun p => decide (0 < p.2))).map
          (fun p => (p.1 - p.2) * (p.1 - p.2) / p.2)).sum)

/-- the window-validity condition of claim C2: the window `data[i..i+L)`
has length `L` and the next symbol `data[i+L]` exists. -/
def specWindowOk (data : List Symbol) (L i : ℕ) : Bool :=
  decide ((window data i L).length = L) && (data.get? (i + L)).isSome

/-- The Distribution Estimator as claim C2 words it: all-zero for an empty
history set; the marginal symbol frequency for the root case `L = 0`; and
for `L > 0` the tally of `data[i+L]` over the valid matching positions,
divided by the total number of valid matching positions when that total is
positive, else zero. -/
def estimateSpec (H : Finset History) (data : List Symbol) (alph : Finset Symbol)
    (L : ℕ) (s : Symbol) : ℚ :=
  if H = ∅ then 0
  else if L = 0 then (data.count s : ℚ) / (data.length : ℚ)
  else
    if 0 < ((List.range data.length).filter
        (fun i => specWindowOk data L i && decide (window data i L ∈ H))).length then
      ((((List.range data.length).filter
          (fun i => specWindowOk data L i && decide (window data i L ∈ H))).filter
        (fun i => decide (data.get? (i + L) = some s))).length : ℚ) /
      (((List.range data.length).filter
          (fun i => specWindowOk data L i && decide (window data i L ∈ H))).length : ℚ)
    else 0

/-- one candidate history set of `CSSR::run`: every history of the parent
state with length exactly `l`, extended by the symbol. -/
def extendHists (S : Finset History) (l : ℕ) (sym : Symbol) : Finset History :=
  (S.filter (fun h => h.length = l)).image (fun h => h ++ [sym])

/-- the `potential_new_states` vector built by `CSSR::run` for one parent
state, in the alphabet iteration order `ord`: a candidate is kept when it
is nonempty and its freshly computed distribution has some positive
value. -/
def potentials (data : List Symbol) (alphabet : Finset Symbol) (ord : List Symbol)
    (S : Finset History) (l : ℕ) : List (Finset History) :=
  ord.filterMap (fun sym =>
    if extendHists S l sym ≠ ∅ ∧ distHasSupport (extendHists S l sym) data alphabet = true
    then some (extendHists S l sym) else none)

/-- the ascending `alphabet_vec` built and sorted by the merge step of
`CSSR::run`.  Insertion sort is used (rather than `Finset.sort`, whose
merge sort is defined by well-founded recursion) so that the model
evaluates by kernel reduction; the result is the unique `≤`-sorted listing
of the alphabet, exactly what `alphabet_vec.sort()` produces. -/
def sortSyms (s : Finset Symbol) : List Symbol :=
  Quot.liftOn s.val (fun l => l.insertionSort (· ≤ ·)) (fun a b hab =>
    List.eq_of_perm_of_sorted
      (((List.perm_insertionSort _ a).trans hab).trans
        (List.perm_insertionSort _ b).symm)
      (List.sorted_insertionSort _ a) (List.sorted_insertionSort _ b))

/-- the aligned distribution vector `CSSR::run` builds over the sorted
alphabet, with `unwrap_or(&0.0)` lookups. -/
def distVec (H : Finset History) (data : List Symbol) (alphabet : Finset Symbol) :
    List ℚ :=
  (sortSyms alphabet).map (fun s => compute_next_symbol_dist H data alphabet s)

/-- the inner loop of the merge step: scan the already-merged groups in
order; on the first group found statistically similar to the current
candidate, absorb the candidate into it (the distribution of the enlarged
group is recomputed from its history set, which the model keeps derived).
`none` means no group matched. -/
def tryMerge (cdf : ℕ → ℚ → ℚ) (data : List Symbol) (alphabet : Finset Symbol)
    (alpha : ℚ) (cur : Finset History) :
    List (Finset History) → Option (List (Finset History))
  | [] => none
  | m :: rest =>
    if are_distributions_similar cdf (distVec cur data alphabet)
        (distVec m data alphabet) alpha = some true
    then some ((m ∪ cur) :: rest)
    else (tryMerge cdf data alphabet alpha cur rest).map (fun r => m :: r)

/-- the merge loop of `CSSR::run`: candidates are popped from the end of
the `potential_new_states` vector (the model passes the reversed list and
consumes it head first) and either absorbed into the first similar merged
group or appended as a new group. -/
def mergeAll (cdf : ℕ → ℚ → ℚ) (data : List Symbol) (alphabet : Finset Symbol)
    (alpha : ℚ) : List (Finset History) → List (Finset History) → List (Finset History)
  | merged, [] => merged
  | merged, cur :: rest =>
    match tryMerge cdf data alphabet alpha cur merged with
    | some merged2 => mergeAll cdf data alphabet alpha merged2 rest
    | none => mergeAll cdf data alphabet alpha (merged ++ [cur]) rest

/-- the per-parent body of the generation loop of `CSSR::run`: carry the
parent unchanged when it has no supported candidate, otherwise the merged
groups of its candidates. -/
def processParent (cdf : ℕ → ℚ → ℚ) (data : List Symbol) (alphabet : Finset Symbol)
    (ord : List Symbol) (alpha : ℚ) (l : ℕ) (S : Finset History) :
    Finset (Finset History) :=
  if potentials data alphabet ord S l = [] then {S}
  else (mergeAll cdf data alphabet alpha []
    (potentials data alphabet ord S l).reverse).toFinset

/-- one generation of `CSSR::run`: the union over all parent states of
their merged successor groups (`new_states`).  A causal state is
identified by its history set, exactly as the source's `PartialEq`
instance does; its distribution is the derived
`compute_next_symbol_dist` of that set, which `CSSR::run` maintains. -/
def nextGen (cdf : ℕ → ℚ → ℚ) (data : List Symbol) (alphabet : Finset Symbol)
    (ord : List Symbol) (alpha : ℚ) (l : ℕ) (states : Finset (Finset History)) :
    Finset (Finset History) :=
  states.biUnion (fun S => processParent cdf data alphabet ord alpha l S)

/-- the state set of `CSSR::run` after `k` generations, starting from the
single root state holding only the empty history. -/
def genStates (cdf : ℕ → ℚ → ℚ) (data : List Symbol) (alphabet : Finset Symbol)
    (ord : List Symbol) (alpha : ℚ) : ℕ → Finset (Finset History)
  | 0 => {({[]} : Finset History)}
  | k + 1 => nextGen cdf data alphabet ord alpha k
      (genStates cdf data alphabet ord alpha k)

/-- `CSSR::run data max_history alpha` on a fresh `CSSR` instance with the
given alphabet: the final state set after `max_history` generations.  `ord`
is the iteration order of the alphabet `HashSet`. -/
def runCSSR (cdf : ℕ → ℚ → ℚ) (ord : List Symbol) (alphabet : Finset Symbol)
    (data : List Symbol) (max_history : ℕ) (alpha : ℚ) : Finset (Finset History) :=
  genStates cdf data alphabet ord alpha max_history

/-- the alternating data sequence of Scenario A (claim C1). -/
def dataAlt : List Symbol := [0, 1, 0, 1, 0, 1, 0, 1, 0, 1]

/-- the data sequence exhibiting order-dependence of the merge loop (claim
C5): after `1` the next symbol is always `0`, while after `0` both symbols
occur equally often. -/
def dataNondet : List Symbol := [0, 0, 1, 0, 0, 1, 0, 0, 1]

/-- a stand-in for the chi-square CDF used by the C5 counterexample: the
constant `6827/10000`, which is the value (to four decimal places) of the
`statrs` chi-square CDF with one degree of freedom at the point `1.0` —
the only point at which the counterexample run consults the CDF. -/
def cdfStub : ℕ → ℚ → ℚ := fun _ _ => 6827 / 10000

lemma chiSquareScan_eq (l : List (ℚ × ℚ)) (stat : ℚ) (k : ℕ) :
    chiSquareScan l stat k =
      if l.any (fun p => !decide (0 < p.2) && decide (0 < p.1)) then none
      else
        some (stat + ((l.filter (fun p => decide (0 < p.2))).map
            (fun p => (p.1 - p.2) * (p.1 - p.2) / p.2)).sum,
          k + (l.filter (fun p => decide (0 < p.2))).length) := by
  induction l generalizing stat k with
  | nil => simp [chiSquareScan]
  | cons p t ih =>
    by_cases h2 : 0 < p.2
    · rw [chiSquareScan, if_pos h2, ih]
      by_cases ht : (t.any fun q => !decide (0 < q.2) && decide (0 < q.1)) = true
      · simp [List.any_cons, h2, ht]
      · rw [if_neg ht, List.any_cons]
        rw [if_neg (by simp [h2, ht])]
        rw [List.filter_cons_of_pos (by simpa using h2)]
        simp only [List.map_cons, List.sum_cons, List.length_cons,
          Option.some.injEq, Prod.mk.injEq]
        exact ⟨by ring, by omega⟩
    · by_cases h1 : 0 < p.1
      · rw [chiSquareScan, if_neg h2, if_pos h1]
        rw [if_pos (by simp [List.any_cons, h2, h1])]
      · rw [chiSquareScan, if_neg h2, if_neg h1, ih, List.any_cons]
        have hfc : List.filter (fun q : ℚ × ℚ => decide (0 < q.2)) (p :: t)
            = List.filter (fun q : ℚ × ℚ => decide (0 < q.2)) t :=
          List.filter_cons_of_neg (by simpa using h2)
        rw [hfc]
        have hp : (!decide (0 < p.2) && decide (0 < p.1)) = false := by simp [h1]
        rw [hp, Bool.false_or]

/-- evaluation of the tester when the scan finishes with statistic `stat`
and category counter `k`. -/
lemma similar_eval (cdf : ℕ → ℚ → ℚ) (a b : List ℚ) (alpha : ℚ) (stat : ℚ) (k : ℕ)
    (hlen : a.length = b.length) (hscan : chiSquareScan (a.zip b) 0 0 = some (stat, k)) :
    are_distributions_similar cdf a b alpha =
      if k ≤ 1 then some true
      else some (decide (alpha < 1 - cdf (k - 1) stat)) := by
  rcases k with _ | _ | n
  · rw [are_distributions_similar, if_neg (not_not_intro hlen), hscan]
    rfl
  · rw [are_distributions_similar, if_neg (not_not_intro hlen), hscan]
    rfl
  · rw [are_distributions_similar, if_neg (not_not_intro hlen), hscan]
    dsimp only
    rw [if_neg (show ¬(n + 2 = 0) by omega),
      if_neg (show ¬(((n + 2 : ℕ) : ℤ) - 1 ≤ 0) by push_cast; omega),
      if_neg (show ¬(n + 2 ≤ 1) by omega), chiSquaredNew,
      if_pos (show 0 < n + 1 + 1 - 1 by omega)]

/-- evaluation of the tester when the scan bails out early. -/
lemma similar_of_scan_none (cdf : ℕ → ℚ → ℚ) (a b : List ℚ) (alpha : ℚ)
    (hlen : a.length = b.length) (hscan : chiSquareScan (a.zip b) 0 0 = none) :
    are_distributions_similar cdf a b alpha = some false := by
  rw [are_distributions_similar, if_neg (not_not_intro hlen), hscan]

lemma mem_zip_self {d : List ℚ} {p : ℚ × ℚ} (hp : p ∈ d.zip d) : p.1 = p.2 := by
  induction d with
  | nil => simp at hp
  | cons x t ih =>
    rw [List.zip_cons_cons] at hp
    rcases List.mem_cons.mp hp with h | h
    · rw [h]
    · exact ih h

/-- C3 as stated fails on vectors with a negative reference entry: with
`a = [1]`, `b = [-1]` the source returns `false` through its
`else if p_a > 0` branch, while the claimed description (whose bail-out
condition tests `b_i = 0` only) yields `true` through the
"counter minus one is not positive" rule. -/
theorem c3_counterexample :
    are_distributions_similar (fun _ _ => 0) [1] [-1] (1 / 20) = some false ∧
      similarSpec (fun _ _ => 0) [1] [-1] (1 / 20) = true := by
  constructor <;> decide

/-- C3 (amended): for every pair of equal-length vectors and every
`alpha ∈ (0,1)`, the tester returns, without panicking, exactly the boolean
described by the claim once its bail-out condition is amended from
`b_i = 0` to `b_i ≤ 0`. -/
theorem c3_tester_matches_spec (cdf : ℕ → ℚ → ℚ) (a b : List ℚ) (alpha : ℚ)
    (hlen : a.length = b.length) (h0 : 0 < alpha) (h1 : alpha < 1) :
    are_distributions_similar cdf a b alpha
      = some (similarSpecAmended cdf a b alpha) := by
  have hpred : (fun p : ℚ × ℚ => !decide (0 < p.2) && decide (0 < p.1))
      = fun p : ℚ × ℚ => decide (p.2 ≤ 0) && decide (0 < p.1) := by
    funext p
    by_cases h : 0 < p.2
    · simp [h, not_le.mpr h]
    · simp [h, not_lt.mp h]
  by_cases hany :
      ((a.zip b).any fun p : ℚ × ℚ => decide (p.2 ≤ 0) && decide (0 < p.1)) = true
  · have hscan : chiSquareScan (a.zip b) 0 0 = none := by
      rw [chiSquareScan_eq, hpred, if_pos hany]
    rw [similar_of_scan_none cdf a b alpha hlen hscan]
    simp only [similarSpecAmended]
    rw [if_pos hany]
  · have hscan : chiSquareScan (a.zip b) 0 0 =
        some ((((a.zip b).filter (fun p : ℚ × ℚ => decide (0 < p.2))).map
            (fun p : ℚ × ℚ => (p.1 - p.2) * (p.1 - p.2) / p.2)).sum,
          ((a.zip b).filter (fun p : ℚ × ℚ => decide (0 < p.2))).length) := by
      rw [chiSquareScan_eq, hpred, if_neg hany]
      simp
    rw [similar_eval cdf a b alpha _ _ hlen hscan]
    simp only [similarSpecAmended]
    rw [if_neg hany]
    by_cases hL : ((a.zip b).filter (fun p : ℚ × ℚ => decide (0 < p.2))).length ≤ 1
    · rw [if_pos hL, if_pos hL]
    · rw [if_neg hL, if_neg hL]

/-- witness for C3 (amended) at a concrete pair of distributions. -/
theorem c3_tester_matches_spec_witness :
    are_distributions_similar (fun _ _ => 0) [1/2, 1/2] [1/4, 3/4] (1/20)
      = some (similarSpecAmended (fun _ _ => 0) [1/2, 1/2] [1/4, 3/4] (1/20)) :=
  c3_tester_matches_spec (fun _ _ => 0) [1/2, 1/2] [1/4, 3/4] (1/20) rfl
    (by norm_num) (by norm_num)

/-- C6: the tester panics exactly when the two vectors differ in length; on
equal-length inputs every branch, including the `unwrap` of
`ChiSquared::new` (reached only with at least one degree of freedom),
returns a boolean. -/
theorem c6_panic_iff_length_mismatch (cdf : ℕ → ℚ → ℚ) (a b : List ℚ) (alpha : ℚ) :
    are_distributions_similar cdf a b alpha = none ↔ a.length ≠ b.length := by
  constructor
  · intro h
    by_contra hlen
    rcases hscan : chiSquareScan (a.zip b) 0 0 with _ | ⟨stat, k⟩
    · rw [similar_of_scan_none cdf a b alpha (hlen) hscan] at h
      exact Option.noConfusion h
    · rw [similar_eval cdf a b alpha stat k (hlen) hscan] at h
      by_cases hk : k ≤ 1
      · rw [if_pos hk] at h
        exact Option.noConfusion h
      · rw [if_neg hk] at h
        exact Option.noConfusion h
  · intro h
    rw [are_distributions_similar, if_pos h]

/-- C7: comparing any vector with itself is `true` for every significance
level below one; the statistic accumulates to zero, and on the path that
consults it the chi-square CDF of the `statrs` crate vanishes at zero
(stated as the hypothesis `hcdf`). -/
theorem c7_self_similar (cdf : ℕ → ℚ → ℚ) (d : List ℚ) (alpha : ℚ)
    (h0 : 0 < alpha) (h1 : alpha < 1) (hcdf : ∀ n, 0 < n → cdf n 0 = 0) :
    are_distributions_similar cdf d d alpha = some true := by
  have hany : ((d.zip d).any fun p : ℚ × ℚ => !decide (0 < p.2) && decide (0 < p.1))
      = false := by
    rw [List.any_eq_false]
    intro p hp
    rw [mem_zip_self hp]
    by_cases h : 0 < p.2 <;> simp [h]
  have hsum : (((d.zip d).filter fun p : ℚ × ℚ => decide (0 < p.2)).map
      (fun p : ℚ × ℚ => (p.1 - p.2) * (p.1 - p.2) / p.2)).sum = 0 := by
    apply List.sum_eq_zero
    intro x hx
    rcases List.mem_map.mp hx with ⟨p, hp, rfl⟩
    rw [mem_zip_self (List.mem_of_mem_filter hp)]
    simp
  have hscan : chiSquareScan (d.zip d) 0 0 =
      some (0, ((d.zip d).filter fun p : ℚ × ℚ => decide (0 < p.2)).length) := by
    rw [chiSquareScan_eq, hany, hsum]
    simp
  rw [similar_eval cdf d d alpha _ _ rfl hscan]
  by_cases hk : ((d.zip d).filter fun p : ℚ × ℚ => decide (0 < p.2)).length ≤ 1
  · rw [if_pos hk]
  · rw [if_neg hk, hcdf _ (by omega), sub_zero]
    simp [h1]

/-- witness for C7 at a concrete input exercising the CDF path. -/
theorem c7_self_similar_witness :
    are_distributions_similar (fun _ _ => 0) [1/2, 1/3] [1/2, 1/3] (1/2) = some true :=
  c7_self_similar (fun _ _ => 0) [1/2, 1/3] (1/2) (by norm_num) (by norm_num)
    (fun n _ => rfl)

/-- C8: the tester is directionally asymmetric: at `a = [1,0]`,
`b = [0,0]`, `alpha = 1/20` the two argument orders give different answers
(`false` through the support-mismatch bail-out versus `true` through the
"counter minus one is not positive" rule), for every CDF. -/
theorem c8_asymmetric (cdf : ℕ → ℚ → ℚ) :
    are_distributions_similar cdf [1, 0] [0, 0] (1 / 20) ≠
      are_distributions_similar cdf [0, 0] [1, 0] (1 / 20) := by
  have hone : are_distributions_similar cdf [1, 0] [0, 0] (1 / 20) = some false := rfl
  have htwo : are_distributions_similar cdf [0, 0] [1, 0] (1 / 20) = some true := rfl
  rw [hone, htwo]
  simp

lemma histLen_eq {H : Finset History} {L : ℕ} (hne : H.Nonempty)
    (hall : ∀ h ∈ H, h.length = L) : histLen H = L := by
  obtain ⟨h0, hh0⟩ := hne
  refine le_antisymm (Finset.sup_le fun h hh => le_of_eq (hall h hh)) ?_
  calc L = h0.length := (hall h0 hh0).symm
    _ ≤ histLen H := Finset.le_sup hh0

lemma get?_isSome_iff {α : Type} {l : List α} {n : ℕ} :
    (l.get? n).isSome = true ↔ n < l.length := by
  constructor
  · intro h
    by_contra hn
    rw [List.get?_eq_none.mpr (by omega)] at h
    simp at h
  · intro h
    rw [List.get?_eq_get h]
    rfl

lemma filter_range_shrink (p : ℕ → Bool) (m n : ℕ) (hmn : m ≤ n)
    (hp : ∀ i, p i = true → i < m) :
    (List.range n).filter p = (List.range m).filter p := by
  obtain ⟨k, rfl⟩ : ∃ k, n = m + k := ⟨n - m, by omega⟩
  rw [List.range_add, List.filter_append]
  have hnil : ((List.range k).map (m + ·)).filter p = [] := by
    rw [List.filter_eq_nil_iff]
    intro a ha hpa
    rcases List.mem_map.mp ha with ⟨i, _, rfl⟩
    have := hp _ hpa
    omega
  rw [hnil, List.append_nil]

/-- the support check is equivalent to a positive total, for a nonempty
history set. -/
lemma distHasSupport_iff {H : Finset History} {data : List Symbol}
    {alph : Finset Symbol} (hne : H ≠ ∅) :
    distHasSupport H data alph = true ↔ 0 < totalTally H data := by
  rw [distHasSupport, decide_eq_true_eq]
  constructor
  · rintro ⟨s, hs, hpos⟩
    by_contra htot
    rw [compute_next_symbol_dist, if_neg hne] at hpos
    simp only [if_neg htot] at hpos
    exact lt_irrefl 0 hpos
  · intro htot
    by_cases hl : histLen H = 0
    · rw [totalTally, if_pos hl] at htot
      obtain ⟨x, hx⟩ : ∃ x, x ∈ data := by
        rcases data with _ | ⟨y, t⟩
        · simp at htot
        · exact ⟨y, List.mem_cons_self y t⟩
      refine ⟨x, Finset.mem_union_right _ (List.mem_toFinset.mpr hx), ?_⟩
      rw [compute_next_symbol_dist, if_neg hne]
      have htot2 : 0 < totalTally H data := by
        rw [totalTally, if_pos hl]
        exact htot
      rw [if_pos htot2]
      apply div_pos
      · have : 0 < symbolTally H data x := by
          rw [symbolTally, if_pos hl]
          exact List.count_pos_iff.mpr hx
        exact_mod_cast this
      · exact_mod_cast htot2
    · rw [totalTally, if_neg hl] at htot
      obtain ⟨i, hi⟩ : ∃ i, i ∈ matchPositions H data (histLen H) := by
        rcases hmp : matchPositions H data (histLen H) with _ | ⟨j, t⟩
        · rw [hmp] at htot
          simp at htot
        · exact ⟨j, hmp ▸ List.mem_cons_self j t⟩
      have hibound : i + histLen H < data.length := by
        have hr := (List.mem_filter.mp hi).1
        rw [List.mem_range] at hr
        omega
      obtain ⟨next, hnext⟩ : ∃ v, data.get? (i + histLen H) = some v :=
        ⟨_, List.get?_eq_get hibound⟩
      refine ⟨next, Finset.mem_union_right _ (List.mem_toFinset.mpr
        (List.get?_mem hnext)), ?_⟩
      rw [compute_next_symbol_dist, if_neg hne]
      have htot2 : 0 < totalTally H data := by
        rw [totalTally, if_neg hl]
        exact htot
      rw [if_pos htot2]
      apply div_pos
      · have hmem : i ∈ (matchPositions H data (histLen H)).filter
            (fun j => decide (data.get? (j + histLen H) = some next)) := by
          rw [List.mem_filter]
          exact ⟨hi, by rw [hnext]; simp⟩
        have : 0 < symbolTally H data next := by
          rw [symbolTally, if_neg hl]
          exact List.length_pos_of_mem hmem
        exact_mod_cast this
      · exact_mod_cast htot2

/-- C2: the Distribution Estimator computes exactly the distribution the
claim describes: all-zero for an empty history set, the marginal
distribution for the root case, and the conditional tally ratio (or the
all-zero degenerate distribution without support) for positive history
length. -/
theorem c2_estimator_matches_spec (alph : Finset Symbol) (data : List Symbol)
    (L : ℕ) (H : Finset History) :
    (H = ∅ → ∀ s ∈ alph, compute_next_symbol_dist H data alph s = 0) ∧
    (H.Nonempty → (∀ h ∈ H, h.length = L) → ∀ s ∈ alph,
      compute_next_symbol_dist H data alph s = estimateSpec H data alph L s) := by
  constructor
  · intro hempty s _
    rw [compute_next_symbol_dist, if_pos hempty]
  · intro hne hall s _
    have hHne : H ≠ ∅ := Finset.nonempty_iff_ne_empty.mp hne
    have hlen : histLen H = L := histLen_eq hne hall
    rw [compute_next_symbol_dist, if_neg hHne, estimateSpec, if_neg hHne]
    by_cases hL : L = 0
    · rw [if_pos hL, totalTally, symbolTally, hlen, if_pos hL, if_pos hL]
      by_cases hd : 0 < data.length
      · rw [if_pos hd]
      · rw [if_neg hd]
        have hnil : data = [] := by
          rcases data with _ | ⟨y, t⟩
          · rfl
          · simp at hd
        subst hnil
        simp
    · rw [if_neg hL]
      have hvalid : (List.range data.length).filter
          (fun i => specWindowOk data L i && decide (window data i L ∈ H))
          = matchPositions H data L := by
        rw [matchPositions]
        have hsub : ∀ i,
            (specWindowOk data L i && decide (window data i L ∈ H)) = true
            → i < data.length - L := by
          intro i hi
          have h1 := (Bool.and_eq_true _ _).mp hi |>.1
          rw [specWindowOk, Bool.and_eq_true] at h1
          have hsome : i + L < data.length := get?_isSome_iff.mp h1.2
          omega
        rw [filter_range_shrink _ _ _ (Nat.sub_le _ _) hsub]
        apply List.filter_congr
        intro i hi
        rw [List.mem_range] at hi
        have hwin : specWindowOk data L i = true := by
          rw [specWindowOk, Bool.and_eq_true]
          constructor
          · rw [decide_eq_true_eq, window, List.length_take, List.length_drop]
            omega
          · exact get?_isSome_iff.mpr (by omega)
        rw [hwin, Bool.true_and]
      rw [totalTally, symbolTally, hlen, if_neg hL, if_neg hL, hvalid]

/-- C10: for a nonempty set of histories of one common positive length `L`
with `data.length ≤ L`, the estimator scans no position at all (the model
counterpart of "no out-of-bounds access and no underflow in the loop
bounds": the guarded loop body never runs), and the result is the all-zero
degenerate distribution on the alphabet. -/
theorem c10_short_data_degenerate (alph : Finset Symbol) (data : List Symbol)
    (L : ℕ) (H : Finset History) (hne : H.Nonempty) (hall : ∀ h ∈ H, h.length = L)
    (hL : 0 < L) (hshort : data.length ≤ L) :
    matchPositions H data (histLen H) = [] ∧
      (∀ i ∈ matchPositions H data (histLen H), i + histLen H < data.length) ∧
      ∀ s ∈ alph, compute_next_symbol_dist H data alph s = 0 := by
  have hlen : histLen H = L := histLen_eq hne hall
  have hnil : matchPositions H data (histLen H) = [] := by
    rw [matchPositions, hlen]
    have hz : data.length - L = 0 := by omega
    rw [hz]
    rfl
  refine ⟨hnil, ?_, ?_⟩
  · rw [hnil]
    intro i hi
    simp at hi
  · intro s _
    rw [compute_next_symbol_dist, if_neg (Finset.nonempty_iff_ne_empty.mp hne)]
    have htot : totalTally H data = 0 := by
      rw [totalTally, hlen, if_neg (by omega)]
      rw [hlen] at hnil
      rw [hnil]
      rfl
    rw [htot]
    simp

lemma tryMerge_nil (cdf : ℕ → ℚ → ℚ) (data : List Symbol) (alphabet : Finset Symbol)
    (alpha : ℚ) (cur : Finset History) :
    tryMerge cdf data alphabet alpha cur [] = none := rfl

lemma tryMerge_cons_of_ne (cdf : ℕ → ℚ → ℚ) (data : List Symbol)
    (alphabet : Finset Symbol) (alpha : ℚ) (cur m : Finset History)
    (rest : List (Finset History))
    (h : are_distributions_similar cdf (distVec cur data alphabet)
      (distVec m data alphabet) alpha ≠ some true) :
    tryMerge cdf data alphabet alpha cur (m :: rest)
      = (tryMerge cdf data alphabet alpha cur rest).map (fun r => m :: r) := by
  simp only [tryMerge]
  rw [if_neg h]

lemma tryMerge_cons_of_eq (cdf : ℕ → ℚ → ℚ) (data : List Symbol)
    (alphabet : Finset Symbol) (alpha : ℚ) (cur m : Finset History)
    (rest : List (Finset History))
    (h : are_distributions_similar cdf (distVec cur data alphabet)
      (distVec m data alphabet) alpha = some true) :
    tryMerge cdf data alphabet alpha cur (m :: rest) = some ((m ∪ cur) :: rest) := by
  simp only [tryMerge]
  rw [if_pos h]

lemma mergeAll_nil (cdf : ℕ → ℚ → ℚ) (data : List Symbol) (alphabet : Finset Symbol)
    (alpha : ℚ) (merged : List (Finset History)) :
    mergeAll cdf data alphabet alpha merged [] = merged := rfl

lemma mergeAll_cons_of_none (cdf : ℕ → ℚ → ℚ) (data : List Symbol)
    (alphabet : Finset Symbol) (alpha : ℚ) (merged : List (Finset History))
    (cur : Finset History) (rest : List (Finset History))
    (h : tryMerge cdf data alphabet alpha cur merged = none) :
    mergeAll cdf data alphabet alpha merged (cur :: rest)
      = mergeAll cdf data alphabet alpha (merged ++ [cur]) rest := by
  simp only [mergeAll]
  rw [h]

lemma mergeAll_cons_of_some (cdf : ℕ → ℚ → ℚ) (data : List Symbol)
    (alphabet : Finset Symbol) (alpha : ℚ) (merged merged2 : List (Finset History))
    (cur : Finset History) (rest : List (Finset History))
    (h : tryMerge cdf data alphabet alpha cur merged = some merged2) :
    mergeAll cdf data alphabet alpha merged (cur :: rest)
      = mergeAll cdf data alphabet alpha merged2 rest := by
  simp only [mergeAll]
  rw [h]

lemma runCSSR_one (cdf : ℕ → ℚ → ℚ) (ord : List Symbol) (alphabet : Finset Symbol)
    (data : List Symbol) (alpha : ℚ) :
    runCSSR cdf ord alphabet data 1 alpha
      = nextGen cdf data alphabet ord alpha 0 {({[]} : Finset History)} := rfl

lemma ord_eq_pair {ord : List ℕ} (hnd : ord.Nodup) (ht : ord.toFinset = {0, 1}) :
    ord = [0, 1] ∨ ord = [1, 0] := by
  have hlen : ord.length = 2 := by
    have hc := List.toFinset_card_of_nodup hnd
    rw [ht] at hc
    simpa using hc.symm
  have hsub : ∀ x ∈ ord, x = 0 ∨ x = 1 := by
    intro x hx
    have hmem : x ∈ ({0, 1} : Finset ℕ) := ht ▸ List.mem_toFinset.mpr hx
    simpa using hmem
  rcases ord with _ | ⟨a, _ | ⟨b, _ | ⟨c, t⟩⟩⟩
  · simp at hlen
  · simp at hlen
  · rcases hsub a (by simp) with rfl | rfl
    · rcases hsub b (by simp) with rfl | rfl
      · exact absurd (List.nodup_cons.mp hnd).1 (by simp)
      · exact Or.inl rfl
    · rcases hsub b (by simp) with rfl | rfl
      · exact Or.inr rfl
      · exact absurd (List.nodup_cons.mp hnd).1 (by simp)
  · simp at hlen

/-- C1: on the alternating sequence with `max_history = 1` and
`alpha = 0.01`, for every CDF and every iteration order of the alphabet
`{0,1}`, the run produces exactly the two causal states `{[0]}` and
`{[1]}`, whose distributions map `0 ↦ 0, 1 ↦ 1` and `0 ↦ 1, 1 ↦ 0`
respectively (a state's distribution is the derived
`compute_next_symbol_dist` of its history set). -/
theorem c1_alternating_two_states (cdf : ℕ → ℚ → ℚ) (ord : List Symbol)
    (hnd : ord.Nodup) (ht : ord.toFinset = {0, 1}) :
    runCSSR cdf ord {0, 1} dataAlt 1 (1 / 100)
        = {({[0]} : Finset History), {[1]}} ∧
      compute_next_symbol_dist {[0]} dataAlt {0, 1} 0 = 0 ∧
      compute_next_symbol_dist {[0]} dataAlt {0, 1} 1 = 1 ∧
      compute_next_symbol_dist {[1]} dataAlt {0, 1} 0 = 1 ∧
      compute_next_symbol_dist {[1]} dataAlt {0, 1} 1 = 0 := by
  have hd0 : distVec {[0]} dataAlt {0, 1} = [0, 1] := by with_unfolding_all decide
  have hd1 : distVec {[1]} dataAlt {0, 1} = [1, 0] := by with_unfolding_all decide
  refine ⟨?_, by with_unfolding_all decide, by with_unfolding_all decide,
    by with_unfolding_all decide, by with_unfolding_all decide⟩
  rcases ord_eq_pair hnd ht with rfl | rfl
  · have hpot : potentials dataAlt {0, 1} [0, 1] {([] : History)} 0
        = [{[0]}, {[1]}] := by with_unfolding_all decide
    rw [runCSSR_one, nextGen, Finset.singleton_biUnion, processParent, hpot,
      if_neg (by simp)]
    have hrev : [({[0]} : Finset History), {[1]}].reverse = [{[1]}, {[0]}] := rfl
    rw [hrev]
    have hsim : are_distributions_similar cdf (distVec {[0]} dataAlt {0, 1})
        (distVec {[1]} dataAlt {0, 1}) (1 / 100) ≠ some true := by
      rw [hd0, hd1]
      have hval : are_distributions_similar cdf [0, 1] [1, 0] (1 / 100)
          = some false := by with_unfolding_all rfl
      rw [hval]
      simp
    rw [mergeAll_cons_of_none _ _ _ _ _ _ _ (tryMerge_nil _ _ _ _ _),
      List.nil_append,
      mergeAll_cons_of_none _ _ _ _ _ _ _ (by
        rw [tryMerge_cons_of_ne _ _ _ _ _ _ _ hsim, tryMerge_nil]
        rfl),
      mergeAll_nil]
    with_unfolding_all decide
  · have hpot : potentials dataAlt {0, 1} [1, 0] {([] : History)} 0
        = [{[1]}, {[0]}] := by with_unfolding_all decide
    rw [runCSSR_one, nextGen, Finset.singleton_biUnion, processParent, hpot,
      if_neg (by simp)]
    have hrev : [({[1]} : Finset History), {[0]}].reverse = [{[0]}, {[1]}] := rfl
    rw [hrev]
    have hsim : are_distributions_similar cdf (distVec {[1]} dataAlt {0, 1})
        (distVec {[0]} dataAlt {0, 1}) (1 / 100) ≠ some true := by
      rw [hd0, hd1]
      have hval : are_distributions_similar cdf [1, 0] [0, 1] (1 / 100)
          = some false := by with_unfolding_all rfl
      rw [hval]
      simp
    rw [mergeAll_cons_of_none _ _ _ _ _ _ _ (tryMerge_nil _ _ _ _ _),
      List.nil_append,
      mergeAll_cons_of_none _ _ _ _ _ _ _ (by
        rw [tryMerge_cons_of_ne _ _ _ _ _ _ _ hsim, tryMerge_nil]
        rfl),
      mergeAll_nil]
    with_unfolding_all decide

/-- witness for C1 at the iteration order `[0, 1]` and a concrete CDF. -/
theorem c1_alternating_two_states_witness :
    runCSSR (fun _ _ => 0) [0, 1] {0, 1} dataAlt 1 (1 / 100)
        = {({[0]} : Finset History), {[1]}} ∧
      compute_next_symbol_dist {[0]} dataAlt {0, 1} 0 = 0 ∧
      compute_next_symbol_dist {[0]} dataAlt {0, 1} 1 = 1 ∧
      compute_next_symbol_dist {[1]} dataAlt {0, 1} 0 = 1 ∧
      compute_next_symbol_dist {[1]} dataAlt {0, 1} 1 = 0 :=
  c1_alternating_two_states (fun _ _ => 0) [0, 1] (by decide) (by decide)

/-- C5 as stated fails: the output of `CSSR::run` depends on the iteration
order of the alphabet `HashSet`.  On `dataNondet` with `max_history = 1`
and `alpha = 1/20`, the order `[0, 1]` leaves the two successor states
separate while the order `[1, 0]` merges them, because the similarity test
is directionally asymmetric.  `cdfStub` supplies the one CDF value the run
consults, matching the `statrs` chi-square CDF there. -/
theorem c5_counterexample :
    runCSSR cdfStub [0, 1] {0, 1} dataNondet 1 (1 / 20)
      ≠ runCSSR cdfStub [1, 0] {0, 1} dataNondet 1 (1 / 20) := by
  with_unfolding_all decide

/-- C5 (amended): `CSSR::run` is deterministic once the iteration order of
the alphabet container is fixed: the state set is a function of the data,
the bound, the significance level, the alphabet, its iteration order and
the CDF alone — in the embedding, two runs with identical inputs and
identical iteration order are literally the same value. -/
theorem c5_deterministic_given_order (cdf : ℕ → ℚ → ℚ) (ord : List Symbol)
    (alphabet : Finset Symbol) (data : List Symbol) (max_history : ℕ) (alpha : ℚ) :
    runCSSR cdf ord alphabet data max_history alpha
      = runCSSR cdf ord alphabet data max_history alpha := rfl

/-- witness for C2 at concrete inputs exercising both branches. -/
theorem c2_estimator_matches_spec_witness :
    compute_next_symbol_dist (∅ : Finset History) [0, 1] {0, 1} 0 = 0 ∧
      compute_next_symbol_dist {[0]} [0, 1, 0] {0, 1} 1
        = estimateSpec {[0]} [0, 1, 0] {0, 1} 1 1 :=
  ⟨(c2_estimator_matches_spec {0, 1} [0, 1] 1 ∅).1 rfl 0 (by decide),
    (c2_estimator_matches_spec {0, 1} [0, 1, 0] 1 {[0]}).2 ⟨[0], by decide⟩
      (by decide) 1 (by decide)⟩

/-- witness for C10 at a concrete short data sequence. -/
theorem c10_short_data_degenerate_witness :
    matchPositions {[0, 0, 0]} [0, 1] (histLen {[0, 0, 0]}) = [] ∧
      (∀ i ∈ matchPositions {[0, 0, 0]} [0, 1] (histLen {[0, 0, 0]}),
        i + histLen {[0, 0, 0]} < ([0, 1] : List Symbol).length) ∧
      ∀ s ∈ ({0, 1} : Finset Symbol),
        compute_next_symbol_dist {[0, 0, 0]} [0, 1] {0, 1} s = 0 :=
  c10_short_data_degenerate {0, 1} [0, 1] 3 {[0, 0, 0]} ⟨[0, 0, 0], by decide⟩
    (by decide) (by omega) (by decide)

lemma ord_eq_singleton {ord : List ℕ} (hnd : ord.Nodup) (ht : ord.toFinset = {0}) :
    ord = [0] := by
  have hlen : ord.length = 1 := by
    have hc := List.toFinset_card_of_nodup hnd
    rw [ht] at hc
    simpa using hc.symm
  have hsub : ∀ x ∈ ord, x = 0 := by
    intro x hx
    have hmem : x ∈ ({0} : Finset ℕ) := ht ▸ List.mem_toFinset.mpr hx
    simpa using hmem
  rcases ord with _ | ⟨a, _ | ⟨b, t⟩⟩
  · simp at hlen
  · rw [hsub a (by simp)]
  · simp at hlen

lemma take_replicate_zero (m n : ℕ) :
    (List.replicate n (0 : Symbol)).take m = List.replicate (min m n) 0 := by
  induction n generalizing m with
  | zero => simp
  | succ n ih =>
    cases m with
    | zero => simp
    | succ m =>
      rw [List.replicate_succ, List.take_succ_cons, ih,
        show min (m + 1) (n + 1) = min m n + 1 by omega, List.replicate_succ]

lemma drop_replicate_zero (m n : ℕ) :
    (List.replicate n (0 : Symbol)).drop m = List.replicate (n - m) 0 := by
  induction n generalizing m with
  | zero => simp
  | succ n ih =>
    cases m with
    | zero => simp
    | succ m =>
      rw [List.replicate_succ, List.drop_succ_cons, ih]
      congr 1
      omega

lemma histLen_replicate (m : ℕ) :
    histLen {List.replicate m (0 : Symbol)} = m := by
  rw [histLen, Finset.sup_singleton, List.length_replicate]

lemma matchPositions_replicate (n m : ℕ) :
    matchPositions {List.replicate m (0 : Symbol)} (List.replicate n 0) m
      = List.range (n - m) := by
  rw [matchPositions, List.length_replicate]
  apply List.filter_eq_self.mpr
  intro i hi
  rw [List.mem_range] at hi
  rw [decide_eq_true_eq, window, drop_replicate_zero, take_replicate_zero,
    show min m (n - i) = m by omega]
  exact Finset.mem_singleton_self _

lemma totalTally_replicate (n m : ℕ) (hm : 0 < m) :
    totalTally {List.replicate m (0 : Symbol)} (List.replicate n 0) = n - m := by
  rw [totalTally, histLen_replicate, if_neg (by omega),
    matchPositions_replicate n m, List.length_range]

lemma symbolTally_replicate (n m : ℕ) (hm : 0 < m) :
    symbolTally {List.replicate m (0 : Symbol)} (List.replicate n 0) 0 = n - m := by
  rw [symbolTally, histLen_replicate, if_neg (by omega),
    matchPositions_replicate n m]
  rw [List.filter_eq_self.mpr, List.length_range]
  intro i hi
  rw [List.mem_range] at hi
  rw [decide_eq_true_eq, List.get?_eq_get (by rw [List.length_replicate]; omega),
    List.get_replicate]

lemma dist_replicate (n m : ℕ) (hm : 0 < m) (hmn : m < n) :
    compute_next_symbol_dist {List.replicate m (0 : Symbol)} (List.replicate n 0)
      {0} 0 = 1 := by
  rw [compute_next_symbol_dist,
    if_neg (Finset.singleton_ne_empty (List.replicate m (0 : Symbol)))]
  rw [totalTally_replicate n m hm, symbolTally_replicate n m hm,
    if_pos (by omega)]
  rw [div_self]
  exact_mod_cast Nat.sub_ne_zero_of_lt hmn

lemma extendHists_replicate_eq (k : ℕ) :
    extendHists {List.replicate k (0 : Symbol)} k 0
      = {List.replicate (k + 1) 0} := by
  rw [extendHists, Finset.filter_singleton, if_pos (by simp),
    Finset.image_singleton, ← List.replicate_succ']

lemma extendHists_replicate_ne (k l : ℕ) (h : k ≠ l) :
    extendHists {List.replicate k (0 : Symbol)} l 0 = ∅ := by
  rw [extendHists, Finset.filter_singleton, if_neg (by simp [h]),
    Finset.image_empty]

lemma potentials_replicate_lt (k : ℕ) (hk : k ≤ 8) :
    potentials (List.replicate 10 0) {0} [0] {List.replicate k (0 : Symbol)} k
      = [{List.replicate (k + 1) 0}] := by
  rw [potentials, List.filterMap_cons, List.filterMap_nil]
  rw [extendHists_replicate_eq k]
  rw [if_pos ⟨Finset.singleton_ne_empty _,
    (distHasSupport_iff (Finset.singleton_ne_empty _)).mpr
      (by rw [totalTally_replicate 10 (k + 1) (by omega)]; omega)⟩]

lemma potentials_replicate_ge (k : ℕ) (hk : 9 ≤ k) :
    potentials (List.replicate 10 0) {0} [0] {List.replicate 9 (0 : Symbol)} k
      = [] := by
  rw [potentials, List.filterMap_cons, List.filterMap_nil]
  by_cases hk9 : k = 9
  · subst hk9
    rw [extendHists_replicate_eq 9]
    rw [if_neg]
    rintro ⟨-, hsup⟩
    have h0 := (distHasSupport_iff (Finset.singleton_ne_empty
      (List.replicate 10 (0 : Symbol)))).mp hsup
    rw [totalTally_replicate 10 10 (by omega)] at h0
    omega
  · rw [extendHists_replicate_ne 9 k (by omega)]
    rw [if_neg]
    rintro ⟨hne, -⟩
    exact hne rfl

lemma genStates_replicate (cdf : ℕ → ℚ → ℚ) (alpha : ℚ) (k : ℕ) :
    genStates cdf (List.replicate 10 0) {0} [0] alpha k
      = {{List.replicate (min k 9) (0 : Symbol)}} := by
  induction k with
  | zero => rfl
  | succ k ih =>
    rw [genStates, ih, nextGen, Finset.singleton_biUnion, processParent]
    by_cases hk : k ≤ 8
    · rw [show min k 9 = k by omega, potentials_replicate_lt k hk,
        if_neg (by simp)]
      rw [show [({List.replicate (k + 1) 0} : Finset History)].reverse
        = [{List.replicate (k + 1) 0}] from rfl]
      rw [mergeAll_cons_of_none _ _ _ _ _ _ _ (tryMerge_nil _ _ _ _ _),
        List.nil_append, mergeAll_nil]
      rw [show min (k + 1) 9 = k + 1 by omega]
      simp
    · rw [show min k 9 = 9 by omega, potentials_replicate_ge k (by omega),
        if_pos rfl, show min (k + 1) 9 = 9 by omega]

/-- C9: on the constant sequence of ten zeros, for every CDF, every
iteration order of the alphabet `{0}`, every `max_history ≥ 1` and every
`alpha ∈ (0,1)`, the run produces exactly one causal state, and its
next-symbol distribution maps the symbol `0` to `1`. -/
theorem c9_constant_single_state (cdf : ℕ → ℚ → ℚ) (ord : List Symbol)
    (alpha : ℚ) (max_history : ℕ) (hmh : 1 ≤ max_history) (hnd : ord.Nodup)
    (ht : ord.toFinset = {0}) (h0 : 0 < alpha) (h1 : alpha < 1) :
    (runCSSR cdf ord {0} (List.replicate 10 0) max_history alpha).card = 1 ∧
      ∀ S ∈ runCSSR cdf ord {0} (List.replicate 10 0) max_history alpha,
        compute_next_symbol_dist S (List.replicate 10 0) {0} 0 = 1 := by
  obtain rfl : ord = [0] := ord_eq_singleton hnd ht
  rw [runCSSR, genStates_replicate]
  refine ⟨Finset.card_singleton _, ?_⟩
  intro S hS
  rw [Finset.mem_singleton] at hS
  subst hS
  exact dist_replicate 10 (min max_history 9) (by omega) (by omega)

/-- witness for C9 at `max_history = 2` and a concrete CDF. -/
theorem c9_constant_single_state_witness :
    (runCSSR (fun _ _ => 0) [0] {0} (List.replicate 10 0) 2 (1 / 20)).card = 1 ∧
      ∀ S ∈ runCSSR (fun _ _ => 0) [0] {0} (List.replicate 10 0) 2 (1 / 20),
        compute_next_symbol_dist S (List.replicate 10 0) {0} 0 = 1 :=
  c9_constant_single_state (fun _ _ => 0) [0] (1 / 20) 2 (by omega) (by decide)
    (by decide) (by norm_num) (by norm_num)

lemma mem_extendHists {S : Finset History} {l : ℕ} {sym : Symbol} {x : History} :
    x ∈ extendHists S l sym ↔ ∃ h, h ∈ S ∧ h.length = l ∧ h ++ [sym] = x := by
  rw [extendHists]
  constructor
  · intro hx
    rcases Finset.mem_image.mp hx with ⟨h, hh, rfl⟩
    rcases Finset.mem_filter.mp hh with ⟨hhS, hhl⟩
    exact ⟨h, hhS, hhl, rfl⟩
  · rintro ⟨h, hhS, hhl, rfl⟩
    exact Finset.mem_image_of_mem _ (Finset.mem_filter.mpr ⟨hhS, hhl⟩)

lemma length_of_mem_extendHists {S : Finset History} {l : ℕ} {sym : Symbol}
    {x : History} (hx : x ∈ extendHists S l sym) : x.length = l + 1 := by
  rcases mem_extendHists.mp hx with ⟨h, -, hhl, rfl⟩
  rw [List.length_append, hhl]
  rfl

lemma extend_disjoint_syms {S T : Finset History} {l : ℕ} {s1 s2 : Symbol}
    (h : s1 ≠ s2) : Disjoint (extendHists S l s1) (extendHists T l s2) := by
  rw [Finset.disjoint_left]
  intro x hx1 hx2
  rcases mem_extendHists.mp hx1 with ⟨h1, -, -, he1⟩
  rcases mem_extendHists.mp hx2 with ⟨h2, -, -, he2⟩
  apply h
  have hlast : (h1 ++ [s1]).getLast? = (h2 ++ [s2]).getLast? := by rw [he1, he2]
  rw [List.getLast?_concat, List.getLast?_concat] at hlast
  exact Option.some.inj hlast

lemma extend_disjoint_parents {S T : Finset History} {l : ℕ} {s1 s2 : Symbol}
    (hST : Disjoint S T) : Disjoint (extendHists S l s1) (extendHists T l s2) := by
  rw [Finset.disjoint_left]
  intro x hx1 hx2
  rcases mem_extendHists.mp hx1 with ⟨h1, hh1, hl1, he1⟩
  rcases mem_extendHists.mp hx2 with ⟨h2, hh2, hl2, he2⟩
  have heq : h1 ++ [s1] = h2 ++ [s2] := by rw [he1, he2]
  obtain ⟨rfl, -⟩ := List.append_inj heq (by rw [hl1, hl2])
  exact (Finset.disjoint_left.mp hST hh1) hh2

lemma mem_potentials {data : List Symbol} {alph : Finset Symbol} {ord : List Symbol}
    {S : Finset History} {l : ℕ} {X : Finset History}
    (h : X ∈ potentials data alph ord S l) :
    ∃ sym ∈ ord, X = extendHists S l sym ∧ X ≠ ∅ := by
  rcases List.mem_filterMap.mp h with ⟨sym, hsym, hf⟩
  by_cases hc : extendHists S l sym ≠ ∅ ∧
      distHasSupport (extendHists S l sym) data alph = true
  · rw [if_pos hc] at hf
    obtain rfl := Option.some.inj hf
    exact ⟨sym, hsym, rfl, hc.1⟩
  · rw [if_neg hc] at hf
    exact absurd hf (by simp)

lemma potentials_pairwise (data : List Symbol) (alph : Finset Symbol)
    (S : Finset History) (l : ℕ) (ord : List Symbol) (hnd : ord.Nodup) :
    List.Pairwise (fun X Y : Finset History => Disjoint X Y)
      (potentials data alph ord S l) := by
  revert hnd
  induction ord with
  | nil =>
    intro hnd
    simp [potentials]
  | cons a t ih =>
    intro hnd
    rcases List.nodup_cons.mp hnd with ⟨ha, hnt⟩
    rw [potentials, List.filterMap_cons]
    by_cases hc : extendHists S l a ≠ ∅ ∧
        distHasSupport (extendHists S l a) data alph = true
    · rw [if_pos hc]
      refine List.Pairwise.cons ?_ (ih hnt)
      intro Y hY
      rcases mem_potentials (show Y ∈ potentials data alph t S l from hY)
        with ⟨sym, hsymt, rfl, -⟩
      exact extend_disjoint_syms (fun h => ha (h ▸ hsymt))
    · rw [if_neg hc]
      exact ih hnt

lemma tryMerge_some {cdf : ℕ → ℚ → ℚ} {data : List Symbol} {alph : Finset Symbol}
    {alpha : ℚ} {cur : Finset History} {merged out : List (Finset History)}
    (h : tryMerge cdf data alph alpha cur merged = some out) :
    ∃ pre m post, merged = pre ++ m :: post ∧ out = pre ++ (m ∪ cur) :: post := by
  induction merged generalizing out with
  | nil => simp [tryMerge] at h
  | cons m rest ih =>
    simp only [tryMerge] at h
    by_cases hc : are_distributions_similar cdf (distVec cur data alph)
        (distVec m data alph) alpha = some true
    · rw [if_pos hc] at h
      obtain rfl := Option.some.inj h
      exact ⟨[], m, rest, rfl, rfl⟩
    · rw [if_neg hc] at h
      rcases Option.map_eq_some'.mp h with ⟨r, hr, rfl⟩
      rcases ih hr with ⟨pre, mm, post, rfl, rfl⟩
      exact ⟨m :: pre, mm, post, rfl, rfl⟩

lemma mergeAll_good (cdf : ℕ → ℚ → ℚ) (data : List Symbol) (alph : Finset Symbol)
    (alpha : ℚ) (P : Finset History → Prop)
    (hPU : ∀ X Y, P X → P Y → P (X ∪ Y)) :
    ∀ pending merged,
      (∀ X ∈ merged, P X) → (∀ X ∈ pending, P X) →
      List.Pairwise (fun X Y : Finset History => Disjoint X Y) merged →
      List.Pairwise (fun X Y : Finset History => Disjoint X Y) pending →
      (∀ X ∈ merged, ∀ Y ∈ pending, Disjoint X Y) →
      (∀ X ∈ mergeAll cdf data alph alpha merged pending, P X) ∧
        List.Pairwise (fun X Y : Finset History => Disjoint X Y)
          (mergeAll cdf data alph alpha merged pending) := by
  intro pending
  induction pending with
  | nil =>
    intro merged hMP _ hMp _ _
    rw [mergeAll_nil]
    exact ⟨hMP, hMp⟩
  | cons cur rest ih =>
    intro merged hMP hpP hMp hpp hcross
    have hcurP : P cur := hpP cur (List.mem_cons_self cur rest)
    have hrestP : ∀ X ∈ rest, P X := fun X hX => hpP X (List.mem_cons_of_mem _ hX)
    rcases List.pairwise_cons.mp hpp with ⟨hcur_rest, hrestp⟩
    have hMcur : ∀ X ∈ merged, Disjoint X cur :=
      fun X hX => hcross X hX cur (List.mem_cons_self cur rest)
    rcases htm : tryMerge cdf data alph alpha cur merged with _ | out
    · rw [mergeAll_cons_of_none _ _ _ _ _ _ _ htm]
      apply ih (merged ++ [cur])
      · intro X hX
        rcases List.mem_append.mp hX with hX | hX
        · exact hMP X hX
        · rw [List.mem_singleton.mp hX]
          exact hcurP
      · exact hrestP
      · rw [List.pairwise_append]
        refine ⟨hMp, List.pairwise_singleton _ _, ?_⟩
        intro X hX Y hY
        rw [List.mem_singleton.mp hY]
        exact hMcur X hX
      · exact hrestp
      · intro X hX Y hY
        rcases List.mem_append.mp hX with hX | hX
        · exact hcross X hX Y (List.mem_cons_of_mem _ hY)
        · rw [List.mem_singleton.mp hX]
          exact hcur_rest Y hY
    · rw [mergeAll_cons_of_some _ _ _ _ _ _ _ _ htm]
      rcases tryMerge_some htm with ⟨pre, m, post, rfl, rfl⟩
      have hpreP : ∀ X ∈ pre, P X :=
        fun X hX => hMP X (List.mem_append.mpr (Or.inl hX))
      have hmP : P m := hMP m (List.mem_append.mpr (Or.inr (List.mem_cons_self m post)))
      have hpostP : ∀ X ∈ post, P X :=
        fun X hX => hMP X (List.mem_append.mpr (Or.inr (List.mem_cons_of_mem _ hX)))
      rcases List.pairwise_append.mp hMp with ⟨hprep, hmpostp, hcrossPre⟩
      rcases List.pairwise_cons.mp hmpostp with ⟨hm_post, hpostp⟩
      have hpre_cur : ∀ X ∈ pre, Disjoint X cur :=
        fun X hX => hMcur X (List.mem_append.mpr (Or.inl hX))
      have hm_cur : Disjoint m cur :=
        hMcur m (List.mem_append.mpr (Or.inr (List.mem_cons_self m post)))
      have hpost_cur : ∀ X ∈ post, Disjoint X cur :=
        fun X hX => hMcur X (List.mem_append.mpr (Or.inr (List.mem_cons_of_mem _ hX)))
      apply ih (pre ++ (m ∪ cur) :: post)
      · intro X hX
        rcases List.mem_append.mp hX with hX | hX
        · exact hpreP X hX
        · rcases List.mem_cons.mp hX with rfl | hX
          · exact hPU m cur hmP hcurP
          · exact hpostP X hX
      · exact hrestP
      · rw [List.pairwise_append, List.pairwise_cons]
        refine ⟨hprep, ⟨?_, hpostp⟩, ?_⟩
        · intro Y hY
          rw [Finset.disjoint_union_left]
          exact ⟨hm_post Y hY, (hpost_cur Y hY).symm⟩
        · intro X hX Y hY
          rcases List.mem_cons.mp hY with rfl | hY
          · rw [Finset.disjoint_union_right]
            exact ⟨hcrossPre X hX m (List.mem_cons_self m post), hpre_cur X hX⟩
          · exact hcrossPre X hX Y (List.mem_cons_of_mem _ hY)
      · exact hrestp
      · intro X hX Y hY
        rcases List.mem_append.mp hX with hX | hX
        · exact hcross X (List.mem_append.mpr (Or.inl hX)) Y
            (List.mem_cons_of_mem _ hY)
        · rcases List.mem_cons.mp hX with rfl | hX
          · rw [Finset.disjoint_union_left]
            exact ⟨hcross m (List.mem_append.mpr
                (Or.inr (List.mem_cons_self m post))) Y (List.mem_cons_of_mem _ hY),
              hcur_rest Y hY⟩
          · exact hcross X (List.mem_append.mpr
              (Or.inr (List.mem_cons_of_mem _ hX))) Y (List.mem_cons_of_mem _ hY)

lemma processParent_facts (cdf : ℕ → ℚ → ℚ) (data : List Symbol)
    (alph : Finset Symbol) (ord : List Symbol) (alpha : ℚ) (l : ℕ)
    (S : Finset History) (hnd : ord.Nodup) :
    (∀ X ∈ processParent cdf data alph ord alpha l S,
      X = S ∨ (X.Nonempty ∧ ∀ x ∈ X, ∃ h s, h ∈ S ∧ h.length = l ∧ x = h ++ [s])) ∧
    (∀ X ∈ processParent cdf data alph ord alpha l S,
      ∀ Y ∈ processParent cdf data alph ord alpha l S, X ≠ Y → Disjoint X Y) := by
  rw [processParent]
  by_cases hpot : potentials data alph ord S l = []
  · rw [if_pos hpot]
    constructor
    · intro X hX
      rw [Finset.mem_singleton] at hX
      exact Or.inl hX
    · intro X hX Y hY hXY
      rw [Finset.mem_singleton] at hX hY
      exact absurd (hX.trans hY.symm) hXY
  · rw [if_neg hpot]
    have hPU : ∀ X Y : Finset History,
        (X.Nonempty ∧ ∀ x ∈ X, ∃ h s, h ∈ S ∧ h.length = l ∧ x = h ++ [s]) →
        (Y.Nonempty ∧ ∀ x ∈ Y, ∃ h s, h ∈ S ∧ h.length = l ∧ x = h ++ [s]) →
        ((X ∪ Y).Nonempty ∧
          ∀ x ∈ X ∪ Y, ∃ h s, h ∈ S ∧ h.length = l ∧ x = h ++ [s]) := by
      rintro X Y ⟨hXne, hXf⟩ ⟨-, hYf⟩
      refine ⟨hXne.inl, ?_⟩
      intro x hx
      rcases Finset.mem_union.mp hx with hx | hx
      · exact hXf x hx
      · exact hYf x hx
    have hcand : ∀ X ∈ (potentials data alph ord S l).reverse,
        X.Nonempty ∧ ∀ x ∈ X, ∃ h s, h ∈ S ∧ h.length = l ∧ x = h ++ [s] := by
      intro X hX
      rw [List.mem_reverse] at hX
      rcases mem_potentials hX with ⟨sym, -, rfl, hne⟩
      refine ⟨Finset.nonempty_iff_ne_empty.mpr hne, ?_⟩
      intro x hx
      rcases mem_extendHists.mp hx with ⟨h, hh, hhl, heq⟩
      exact ⟨h, sym, hh, hhl, heq.symm⟩
    have hpair : List.Pairwise (fun X Y : Finset History => Disjoint X Y)
        (potentials data alph ord S l).reverse := by
      rw [List.pairwise_reverse]
      exact (potentials_pairwise data alph S l ord hnd).imp fun h => h.symm
    obtain ⟨hall, hpw⟩ := mergeAll_good cdf data alph alpha _ hPU
      (potentials data alph ord S l).reverse [] (by simp) hcand
      List.Pairwise.nil hpair (by simp)
    constructor
    · intro X hX
      rw [List.mem_toFinset] at hX
      exact Or.inr (hall X hX)
    · intro X hX Y hY hXY
      rw [List.mem_toFinset] at hX hY
      exact List.Pairwise.forall (fun X Y h => h.symm) hpw hX hY hXY

lemma genStates_inv (cdf : ℕ → ℚ → ℚ) (data : List Symbol) (alph : Finset Symbol)
    (ord : List Symbol) (alpha : ℚ) (hnd : ord.Nodup) (k : ℕ) :
    (∀ X ∈ genStates cdf data alph ord alpha k,
      X.Nonempty ∧ ∃ m ≤ k, ∀ x ∈ X, x.length = m) ∧
    (∀ X ∈ genStates cdf data alph ord alpha k,
      ∀ Y ∈ genStates cdf data alph ord alpha k, X ≠ Y → Disjoint X Y) := by
  induction k with
  | zero =>
    constructor
    · intro X hX
      rw [genStates, Finset.mem_singleton] at hX
      subst hX
      refine ⟨⟨[], Finset.mem_singleton_self _⟩, 0, le_refl 0, ?_⟩
      intro x hx
      rw [Finset.mem_singleton] at hx
      subst hx
      rfl
    · intro X hX Y hY hXY
      rw [genStates, Finset.mem_singleton] at hX hY
      exact absurd (hX.trans hY.symm) hXY
  | succ k ih =>
    obtain ⟨ihP, ihD⟩ := ih
    constructor
    · intro X hX
      rw [genStates, nextGen] at hX
      rcases Finset.mem_biUnion.mp hX with ⟨S, hS, hXS⟩
      rcases (processParent_facts cdf data alph ord alpha k S hnd).1 X hXS
        with heq | hext
      · subst heq
        obtain ⟨hne, m, hm, hlen⟩ := ihP X hS
        exact ⟨hne, m, le_trans hm (Nat.le_succ k), hlen⟩
      · obtain ⟨hne, hf⟩ := hext
        refine ⟨hne, k + 1, le_refl _, ?_⟩
        intro x hx
        rcases hf x hx with ⟨h, s, -, hhl, rfl⟩
        rw [List.length_append, hhl]
        rfl
    · intro X hX Y hY hXY
      rw [genStates, nextGen] at hX hY
      rcases Finset.mem_biUnion.mp hX with ⟨P1, hP1, hX1⟩
      rcases Finset.mem_biUnion.mp hY with ⟨P2, hP2, hY1⟩
      by_cases hP : P1 = P2
      · subst hP
        exact (processParent_facts cdf data alph ord alpha k P1 hnd).2 X hX1 Y hY1 hXY
      · have hd12 : Disjoint P1 P2 := ihD P1 hP1 P2 hP2 hP
        have hX' := (processParent_facts cdf data alph ord alpha k P1 hnd).1 X hX1
        have hY' := (processParent_facts cdf data alph ord alpha k P2 hnd).1 Y hY1
        rcases hX' with heqX | hXe
        · rcases hY' with heqY | hYe
          · rw [heqX, heqY]
            exact hd12
          · rw [Finset.disjoint_left]
            intro a haX haY
            obtain ⟨-, m, hm, hlen⟩ := ihP P1 hP1
            rcases hYe.2 a haY with ⟨h, s, -, hhl, heq⟩
            have h1 : a.length = m := hlen a (heqX ▸ haX)
            have h2 : a.length = k + 1 := by
              rw [heq, List.length_append, hhl]
              rfl
            omega
        · rcases hY' with heqY | hYe
          · rw [Finset.disjoint_left]
            intro a haX haY
            obtain ⟨-, m, hm, hlen⟩ := ihP P2 hP2
            rcases hXe.2 a haX with ⟨h, s, -, hhl, heq⟩
            have h1 : a.length = m := hlen a (heqY ▸ haY)
            have h2 : a.length = k + 1 := by
              rw [heq, List.length_append, hhl]
              rfl
            omega
          · rw [Finset.disjoint_left]
            intro a haX haY
            rcases hXe.2 a haX with ⟨h1, s1, hh1, hl1, he1⟩
            rcases hYe.2 a haY with ⟨h2, s2, hh2, hl2, he2⟩
            have heq : h1 ++ [s1] = h2 ++ [s2] := by rw [← he1, ← he2]
            obtain ⟨rfl, -⟩ := List.append_inj heq (by rw [hl1, hl2])
            exact (Finset.disjoint_left.mp hd12 hh1) hh2

/-- C4: at every generation of `CSSR::run` — after initialization
(`k = 0`) and after each of the `k` iterations — the causal states
partition the histories they hold: no history lies in two distinct states,
and all histories within one state have equal length.  `ord` is the
iteration order of the alphabet `HashSet`, which never repeats an
element. -/
theorem c4_partition_invariant (cdf : ℕ → ℚ → ℚ) (data : List Symbol)
    (alph : Finset Symbol) (ord : List Symbol) (alpha : ℚ) (hnd : ord.Nodup)
    (k : ℕ) :
    (∀ S ∈ genStates cdf data alph ord alpha k,
      ∀ T ∈ genStates cdf data alph ord alpha k, S ≠ T → ∀ h ∈ S, h ∉ T) ∧
    (∀ S ∈ genStates cdf data alph ord alpha k,
      ∀ h1 ∈ S, ∀ h2 ∈ S, h1.length = h2.length) := by
  obtain ⟨hinv, hdisj⟩ := genStates_inv cdf data alph ord alpha hnd k
  constructor
  · intro S hS T hT hST h hhS
    exact Finset.disjoint_left.mp (hdisj S hS T hT hST) hhS
  · intro S hS h1 h1S h2 h2S
    rcases (hinv S hS).2 with ⟨m, -, hm⟩
    rw [hm h1 h1S, hm h2 h2S]

/-- witness for C4 at generation 1 of a concrete run. -/
theorem c4_partition_invariant_witness :
    (∀ S ∈ genStates (fun _ _ => 0) [0, 1, 0, 1] {0, 1} [0, 1] (1 / 20) 1,
      ∀ T ∈ genStates (fun _ _ => 0) [0, 1, 0, 1] {0, 1} [0, 1] (1 / 20) 1,
        S ≠ T → ∀ h ∈ S, h ∉ T) ∧
    (∀ S ∈ genStates (fun _ _ => 0) [0, 1, 0, 1] {0, 1} [0, 1] (1 / 20) 1,
      ∀ h1 ∈ S, ∀ h2 ∈ S, h1.length = h2.length) :=
  c4_partition_invariant (fun _ _ => 0) [0, 1, 0, 1] {0, 1} [0, 1] (1 / 20)
    (by decide) 1

end CSSR
